import Mathlib

/-!
Shallow embedding of the libhat scan engine (src/include/libhat/Scanner.hpp)
together with reference definitions written from the specification, and
theorems settling the frozen claims about the engine.

Modelling conventions:
* a byte is `Fin 256`; memory is a total function from addresses (`Nat`,
  the numeric value of a pointer) to bytes;
* a signature element (`std::optional<std::byte>`) is `Option Byte`;
  `none` is a wildcard;
* pointers are modelled by their addresses; pointer differences that the
  C++ code computes on raw pointers are `Nat` subtractions where the code
  guarantees no underflow, and `Int` where the difference may be negative
  (the values written by `find_all_pattern` and the `rel` resolver);
* the C++ scan loops are modelled by structurally recursive functions with
  an explicit iteration budget equal to the loop bound, so that every
  definition evaluates by kernel reduction; the characterization lemmas
  prove the budget is never exhausted before the loop exits;
* `std::find` is modelled by its standard contract (first position in the
  range holding the value, otherwise the end of the range).
-/

abbrev Byte := Fin 256

abbrev SigElem := Option Byte

abbrev Signature := List SigElem

abbrev Mem := Nat → Byte

/-- The wildcard-aware comparator of the kernels: models
`std::equal(first, last, p, [](auto opt, auto byte) { return !opt.has_value() || *opt == byte; })`
starting at address `p`, applied to a whole element list. -/
def matchesFrom (mem : Mem) : Signature → Nat → Bool
  | [], _ => true
  | elt :: rest, p => (match elt with
      | none => true
      | some v => mem p == v) && matchesFrom mem rest (p + 1)

/-- The leading-wildcard counting loop of `hat::detail::truncate`: walk the
signature and stop at the first element that `has_value()`. -/
def countLeadingWildcards : Signature → Nat
  | none :: rest => countLeadingWildcards rest + 1
  | _ => 0

/-- `hat::detail::truncate`: strip the leading wildcards from a signature,
returning the count and the remaining subspan. -/
def truncate (sig : Signature) : Nat × Signature :=
  (countLeadingWildcards sig, sig.drop (countLeadingWildcards sig))

/-- `hat::scan_alignment`: the two mandated candidate strides. -/
inductive scan_alignment
  | X1
  | X16
deriving DecidableEq

/-- `hat::detail::alignment_stride`: the numeric value of the alignment. -/
def alignment_stride : scan_alignment → Nat
  | .X1 => 1
  | .X16 => 16

/-- `hat::detail::next_boundary_align`: round a pointer up to the next
multiple of the stride (identity for stride 1). -/
def next_boundary_align (stride p : Nat) : Nat :=
  if stride = 1 then p
  else p + (if p % stride = 0 then 0 else stride - p % stride)

/-- `hat::detail::prev_boundary_align`: round a pointer down to the previous
multiple of the stride (identity for stride 1). -/
def prev_boundary_align (stride p : Nat) : Nat :=
  if stride = 1 then p
  else p - p % stride

/-- Contract model of `std::find(i, scanEnd, byte)` over memory: the first
address in `[i, scanEnd)` holding `b`, otherwise `scanEnd`. -/
def std_find (mem : Mem) (b : Byte) (i scanEnd : Nat) : Nat :=
  ((List.range' i (scanEnd - i)).find? (fun j => mem j == b)).getD scanEnd

/-- The scan loop of `find_pattern<scan_mode::FastFirst, scan_alignment::X1>`:
`std::find` the first byte, then compare the tail; on failure resume one
past the hit.  `fuel` bounds the iteration count; it is instantiated with
`scanEnd - i`, which the characterization lemma proves sufficient. -/
def ffX1Go (mem : Mem) (fb : Byte) (tail : Signature) (scanEnd : Nat) :
    Nat → Nat → Option Nat
  | 0, _ => none
  | fuel + 1, i =>
    if i < scanEnd then
      let j := std_find mem fb i scanEnd
      if j < scanEnd then
        if matchesFrom mem tail (j + 1) then some j
        else ffX1Go mem fb tail scanEnd fuel (j + 1)
      else none
    else none

/-- `hat::detail::find_pattern<scan_mode::FastFirst, scan_alignment::X1>`.
The first signature element is dereferenced by the kernel (`*signature[0]`);
the invariant that it is concrete is carried by the theorems, and the
wildcard/empty cases (undefined behaviour in the source) fall back to a
null result. -/
def find_pattern_FastFirst_X1 (mem : Mem) (b e : Nat) (sig : Signature) : Option Nat :=
  match sig with
  | [] => none
  | fbOpt :: tail =>
    let fb := fbOpt.getD 0
    let scanEnd := (e - sig.length) + 1
    ffX1Go mem fb tail scanEnd (scanEnd - b) b

/-- The scan loop of `find_pattern<scan_mode::FastFirst, scan_alignment::X16>`:
check the first byte at each 16-stepped candidate and compare the tail on
equality. -/
def ffX16Go (mem : Mem) (fb : Byte) (tail : Signature) (scanEnd : Nat) :
    Nat → Nat → Option Nat
  | 0, _ => none
  | fuel + 1, i =>
    if i < scanEnd then
      if mem i == fb && matchesFrom mem tail (i + 1) then some i
      else ffX16Go mem fb tail scanEnd fuel (i + 16)
    else none

/-- `hat::detail::find_pattern<scan_mode::FastFirst, scan_alignment::X16>`:
align the start up and the (exclusive) end down to 16-byte boundaries,
reject an empty window, then scan in steps of 16. -/
def find_pattern_FastFirst_X16 (mem : Mem) (b e : Nat) (sig : Signature) : Option Nat :=
  match sig with
  | [] => none
  | fbOpt :: tail =>
    let fb := fbOpt.getD 0
    let scanBegin := next_boundary_align 16 b
    let scanEnd := prev_boundary_align 16 ((e - sig.length) + 1)
    if scanBegin ≥ scanEnd then none
    else ffX16Go mem fb tail scanEnd (scanEnd - scanBegin) scanBegin

/-- The scalar FastFirst kernel family, indexed by alignment. -/
def find_pattern_FastFirst : scan_alignment → Mem → Nat → Nat → Signature → Option Nat
  | .X1 => find_pattern_FastFirst_X1
  | .X16 => find_pattern_FastFirst_X16

/-- `hat::detail::scan_mode`: the kernel selector stored in a context
(stands for the kernel function pointer). -/
inductive scan_mode
  | FastFirst
  | SSE
  | AVX2
  | AVX512
deriving DecidableEq

/-- `scan_mode::Single`, the fallback used by the compile-time path, is an
alias of `FastFirst` in the source. -/
def scan_mode.Single : scan_mode := scan_mode.FastFirst

/-- Modelled from the spec: the SIMD kernel bodies (`SSE`, `AVX2`, `AVX512`)
are declared but not defined under src/ (they live in Scanner.inl).  The
specification states that every kernel implements the same contract as the
scalar reference (`K(range, signature) == scalar_reference(range, signature)`),
so each mode is modelled by the scalar FastFirst kernel of its alignment. -/
def find_pattern_kernel : scan_mode → scan_alignment → Mem → Nat → Nat → Signature → Option Nat
  | scan_mode.FastFirst, al => find_pattern_FastFirst al
  | scan_mode.SSE, al => find_pattern_FastFirst al
  | scan_mode.AVX2, al => find_pattern_FastFirst al
  | scan_mode.AVX512, al => find_pattern_FastFirst al

/-- `hat::detail::scan_context`: signature view, selected kernel, alignment,
vector width and hints. -/
structure scan_context where
  signature : Signature
  scanner : scan_mode
  alignment : scan_alignment
  vectorSize : Nat
  hints : Nat

/-- `scan_context::scan`: trampoline to the stored kernel. -/
def scan_context.scan (ctx : scan_context) (mem : Mem) (b e : Nat) : Option Nat :=
  find_pattern_kernel ctx.scanner ctx.alignment mem b e ctx.signature

/-- Modelled from the spec: `resolve_scanner` (the run-time CPU-feature
dispatch) is declared but not defined under src/.  The spec says the
dispatcher queries CPU features once and picks the widest supported vector
ISA; the model picks AVX512 with vector width 64 as a representative
choice — every mode obeys the same contract. -/
def resolve_scanner (_al : scan_alignment) : scan_mode × Nat :=
  (scan_mode.AVX512, 64)

/-- Modelled from the spec: `apply_hints` is declared but not defined under
src/.  The spec says hints are advisory, may only downgrade the kernel
choice, and never change correctness; the model keeps the context
unchanged. -/
def apply_hints (ctx : scan_context) : scan_context := ctx

/-- `scan_context::create`: the compile-time path selects the scalar
`Single` kernel unconditionally; the run-time path resolves a kernel from
CPU features and applies hints. -/
def scan_context.create (al : scan_alignment) (consteval : Bool)
    (sig : Signature) (hints : Nat) : scan_context :=
  if consteval then
    { signature := sig, scanner := scan_mode.Single, alignment := al,
      vectorSize := 0, hints := hints }
  else
    let rs := resolve_scanner al
    apply_hints { signature := sig, scanner := rs.1, alignment := al,
                  vectorSize := rs.2, hints := hints }

/-- `hat::find_pattern` (root overload): truncate leading wildcards, advance
`begin` by the wildcard count, reject invalid ranges, scan, and compensate
the offset on a hit.  `ce` is whether the call is constant-evaluated. -/
def find_pattern (al : scan_alignment) (ce : Bool) (mem : Mem)
    (beginIt endIt : Nat) (sig : Signature) (hints : Nat) : Option Nat :=
  let t := truncate sig
  let offset := t.1
  let trunc := t.2
  let b := beginIt + offset
  let e := endIt
  if b ≥ e ∨ trunc.length > e - b then none
  else
    let context := scan_context.create al ce trunc hints
    match context.scan mem b e with
    | some p => some (p - offset)
    | none => none

/-- The loop of the bounded `hat::find_all_pattern`: the remaining output
capacity plays the role of `out != endOut`; the cursor is an `Int` because
the source sets it to `(hit - offset) + stride`, which can move before the
range when the signature has leading wildcards.  Returns the written
addresses and the final cursor. -/
def find_all_go (ctx : scan_context) (mem : Mem) (offset e : Nat) :
    Nat → Int → List Int × Int
  | 0, i => ([], i)
  | cap + 1, i =>
    if i < (e : Int) ∧ (ctx.signature.length : Int) ≤ (e : Int) - i then
      match ctx.scan mem i.toNat e with
      | none => ([], (e : Int))
      | some p =>
        let addr : Int := (p : Int) - (offset : Int)
        let next := find_all_go ctx mem offset e cap (addr + (alignment_stride ctx.alignment : Int))
        (addr :: next.1, next.2)
    else ([], i)

/-- `hat::find_all_pattern` (bounded output overload): returns the pair of
the final input iterator (as an address) and the list of written results. -/
def find_all_pattern_bounded (al : scan_alignment) (ce : Bool) (mem : Mem)
    (beginIn endIn : Nat) (cap : Nat) (sig : Signature) (hints : Nat) :
    Int × List Int :=
  let t := truncate sig
  let offset := t.1
  let trunc := t.2
  let b := beginIn + offset
  let ctx := scan_context.create al ce trunc hints
  let r := find_all_go ctx mem offset endIn cap (b : Int)
  ((beginIn : Int) + (r.2 - (b : Int)), r.1)

/-- The loop of the counted `hat::find_all_pattern`.  Its guard re-checks
`begin < end` (not the cursor) and compares the truncated length against
`static_cast<size_t>(std::distance(i, end))`, modelled by a 64-bit
reinterpretation.  The loop has no output bound, so the model carries an
iteration budget `fuel`; `none` means the budget was exhausted before the
loop exited (the loop does not terminate within `fuel` steps). -/
def find_all_counted_go (ctx : scan_context) (mem : Mem) (offset bgn e : Nat) :
    Nat → Int → List Int → Nat → Option (List Int × Nat)
  | 0, _, _, _ => none
  | fuel + 1, i, acc, cnt =>
    if bgn < e ∧ (ctx.signature.length : Int) ≤ ((e : Int) - i) % (2 ^ 64 : Int) then
      match ctx.scan mem i.toNat e with
      | none => some (acc, cnt)
      | some p =>
        let addr : Int := (p : Int) - (offset : Int)
        find_all_counted_go ctx mem offset bgn e fuel
          (addr + (alignment_stride ctx.alignment : Int)) (acc ++ [addr]) (cnt + 1)
    else some (acc, cnt)

/-- `hat::find_all_pattern` (counted overload): returns the written
addresses and the match count, or `none` when the loop exceeds `fuel`
iterations. -/
def find_all_pattern_counted (al : scan_alignment) (ce : Bool) (mem : Mem)
    (beginIn endIn : Nat) (sig : Signature) (hints : Nat) (fuel : Nat) :
    Option (List Int × Nat) :=
  let t := truncate sig
  let offset := t.1
  let trunc := t.2
  let b := beginIn + offset
  let ctx := scan_context.create al ce trunc hints
  find_all_counted_go ctx mem offset b endIn fuel (b : Int) [] 0

/-- Little-endian unsigned load of `n` bytes at address `a`, modelling the
unaligned `read<Int>` of `scan_result_base`. -/
def readLE (mem : Mem) : Nat → Nat → Nat
  | 0, _ => 0
  | n + 1, a => (mem a).val + 256 * readLE mem n (a + 1)

/-- Two's-complement reinterpretation of a 32-bit load as a signed value
(the `int32_t` read performed by `scan_result_base::rel`). -/
def sext32 (v : Nat) : Int :=
  if v % 2 ^ 32 < 2 ^ 31 then ((v % 2 ^ 32 : Nat) : Int)
  else ((v % 2 ^ 32 : Nat) : Int) - 2 ^ 32

/-- `scan_result_base::rel`: resolve the 32-bit relative displacement at
`result + offset`, returning `result + displacement + offset + 4`, or null
when the result is empty.  The held pointer is `Option Nat`; the resolved
address is an `Int` because the displacement is signed. -/
def scan_result_rel (mem : Mem) (result : Option Nat) (offset : Nat) : Option Int :=
  match result with
  | some p => some ((p : Int) + sext32 (readLE mem 4 (p + offset)) + (offset : Int) + 4)
  | none => none

/-- Admissibility of a candidate start under an alignment, following the
claims' wording: stride 1 admits every byte; stride 16 admits addresses
whose numeric value is a multiple of 16. -/
def alignAdmissible : scan_alignment → Nat → Bool
  | .X1, _ => true
  | .X16, j => decide (j % 16 = 0)

/-- Reference find-first following the claims' wording: the lowest
alignment-admissible starting position `p` in the range such that the
signature fits (`p + len ≤ e`) and every element is a wildcard or equals
the byte at `p + k`.  Alignment applies to the kernel position
`p + leading-wildcard count`, matching the candidate set the kernels use. -/
def refFindFirstClaim (al : scan_alignment) (mem : Mem) (beginIt e : Nat)
    (sig : Signature) : Option Nat :=
  (List.range' beginIt (e - beginIt)).find? fun p =>
    decide (p + sig.length ≤ e) && alignAdmissible al (p + countLeadingWildcards sig) &&
      matchesFrom mem sig p

/-- Reference for the X16 kernel following claim C3's wording: candidates
are the 16-aligned addresses from `next_boundary_align 16 b` that lie
below `end - len + 1`. -/
def refX16KernelClaim (mem : Mem) (b e : Nat) (sig : Signature) : Option Nat :=
  let lo := next_boundary_align 16 b
  let hi := (e - sig.length) + 1
  (List.range' lo (hi - lo)).find? fun j => decide (j % 16 = 0) && matchesFrom mem sig j

/-- Reference for the amended X16 kernel contract: same as
`refX16KernelClaim` but with the exclusive candidate bound rounded down to
a 16-byte boundary, as the code does. -/
def refX16KernelCapped (mem : Mem) (b e : Nat) (sig : Signature) : Option Nat :=
  let lo := next_boundary_align 16 b
  let hi := prev_boundary_align 16 ((e - sig.length) + 1)
  (List.range' lo (hi - lo)).find? fun j => decide (j % 16 = 0) && matchesFrom mem sig j

/-- Reference find-first for the amended claim C1: for alignment 1 exactly
the claimed lowest-match semantics; for alignment 16 the same, except that
the candidate window is capped at
`prev_boundary_align 16 (end - len(trunc) + 1)` as in the code. -/
def refFindFirstAmended (al : scan_alignment) (mem : Mem) (beginIt e : Nat)
    (sig : Signature) : Option Nat :=
  match al with
  | .X1 => refFindFirstClaim .X1 mem beginIt e sig
  | .X16 =>
    let t := truncate sig
    (refX16KernelCapped mem (beginIt + t.1) e t.2).map (fun j => j - t.1)

/-- Reference find-all following claim C2's wording for stride 1: the
positions in the range satisfying the match predicate, in increasing
order, each once. -/
def refFindAllClaim (mem : Mem) (beginIt e : Nat) (sig : Signature) : List Nat :=
  (List.range' beginIt (e - beginIt)).filter fun p =>
    decide (p + sig.length ≤ e) && matchesFrom mem sig p

/-- The first candidate position a kernel examines: the scan start for
stride 1, its 16-byte round-up for stride 16. -/
def kernel_scan_lo : scan_alignment → Nat → Nat
  | .X1, b => b
  | .X16, b => next_boundary_align 16 b

/-- The exclusive bound of the kernel's candidate window, in terms of the
range end and the truncated signature length. -/
def kernel_scan_hi : scan_alignment → Nat → Nat → Nat
  | .X1, e, tl => (e + 1) - tl
  | .X16, e, tl => prev_boundary_align 16 ((e - tl) + 1)

/-- The first alignment-admissible candidate start of the full signature
for a call with range begin `beginIt` and `offset` leading wildcards
(claim C7's `first_candidate`). -/
def first_candidate (al : scan_alignment) (beginIt offset : Nat) : Int :=
  ((kernel_scan_lo al (beginIt + offset) : Nat) : Int) - (offset : Int)

/-- The property a candidate kernel position must satisfy to be a hit:
16-aligned when the alignment mandates it, and a wildcard-aware match of
the truncated signature. -/
def kernel_pred (al : scan_alignment) (mem : Mem) (trunc : Signature) (j : Nat) : Prop :=
  (al = .X16 → j % 16 = 0) ∧ matchesFrom mem trunc j = true

/-- `IsLeastIn P lo hi o` states that `o` is the least element of
`[lo, hi)` satisfying `P` when `o = some j`, and that no element of
`[lo, hi)` satisfies `P` when `o = none`. -/
def IsLeastIn (P : Nat → Prop) (lo hi : Nat) : Option Nat → Prop
  | some j => lo ≤ j ∧ j < hi ∧ P j ∧ ∀ k, lo ≤ k → k < j → ¬ P k
  | none => ∀ k, lo ≤ k → k < hi → ¬ P k

/-- All-zero memory, used to instantiate theorems at concrete inputs. -/
def zeroMem : Mem := fun _ => 0

/-- Memory holding 1 at address 0 and 0 elsewhere. -/
def oneThenZeroMem : Mem := fun a => if a = 0 then 1 else 0

/-- Memory holding the byte 0xDE at address 16 and 0 elsewhere. -/
def deAt16Mem : Mem := fun a => if a = 16 then 0xDE else 0

theorem isLeastIn_unique {P : Nat → Prop} {lo hi : Nat} {o₁ o₂ : Option Nat}
    (h₁ : IsLeastIn P lo hi o₁) (h₂ : IsLeastIn P lo hi o₂) : o₁ = o₂ := by
  match o₁, o₂ with
  | none, none => rfl
  | some j, none =>
    simp only [IsLeastIn] at h₁ h₂
    exact absurd h₁.2.2.1 (h₂ j h₁.1 h₁.2.1)
  | none, some j =>
    simp only [IsLeastIn] at h₁ h₂
    exact absurd h₂.2.2.1 (h₁ j h₂.1 h₂.2.1)
  | some j₁, some j₂ =>
    simp only [IsLeastIn] at h₁ h₂
    rcases Nat.lt_trichotomy j₁ j₂ with h | h | h
    · exact absurd h₁.2.2.1 (h₂.2.2.2 j₁ h₁.1 h)
    · rw [h]
    · exact absurd h₂.2.2.1 (h₁.2.2.2 j₂ h₂.1 h)

theorem isLeastIn_empty {P : Nat → Prop} {lo hi : Nat} (h : hi ≤ lo) :
    IsLeastIn P lo hi none := by
  intro k hk hk'
  omega

theorem isLeastIn_iff {P Q : Nat → Prop} {lo hi : Nat} {o : Option Nat}
    (hiff : ∀ k, P k ↔ Q k) (h : IsLeastIn P lo hi o) : IsLeastIn Q lo hi o := by
  match o with
  | none =>
    intro k hk hk' hQ
    exact h k hk hk' ((hiff k).mpr hQ)
  | some j =>
    simp only [IsLeastIn] at h ⊢
    exact ⟨h.1, h.2.1, (hiff j).mp h.2.2.1,
      fun k hk hk' hQ => h.2.2.2 k hk hk' ((hiff k).mpr hQ)⟩

theorem isLeastIn_congr {P Q : Nat → Prop} {lo hi hi' : Nat} {o : Option Nat}
    (h : IsLeastIn P lo hi o) (hhi : hi ≤ hi')
    (hiff : ∀ k, lo ≤ k → k < hi' → (Q k ↔ P k ∧ k < hi)) : IsLeastIn Q lo hi' o := by
  match o with
  | none =>
    intro k hk hk' hQ
    have := (hiff k hk hk').mp hQ
    exact h k hk this.2 this.1
  | some j =>
    simp only [IsLeastIn] at h ⊢
    refine ⟨h.1, by omega, ?_, ?_⟩
    · exact (hiff j h.1 (by omega)).mpr ⟨h.2.2.1, h.2.1⟩
    · intro k hk hk' hQ
      have := (hiff k hk (by omega)).mp hQ
      exact h.2.2.2 k hk hk' this.1

theorem isLeastIn_shift {P : Nat → Prop} {lo hi : Nat} {o : Option Nat}
    (h : IsLeastIn P lo hi o) (c : Nat) (hc : c ≤ lo) :
    IsLeastIn (fun p => P (p + c)) (lo - c) (hi - c) (o.map (fun x => x - c)) := by
  match o with
  | none =>
    intro k hk hk' hP
    exact h (k + c) (by omega) (by omega) hP
  | some j =>
    simp only [IsLeastIn] at h
    show IsLeastIn _ _ _ (some (j - c))
    have hj : j - c + c = j := by omega
    refine ⟨by omega, by omega, by simp only; rw [hj]; exact h.2.2.1, ?_⟩
    intro k hk hk' hP
    exact h.2.2.2 (k + c) (by omega) (by omega) hP

theorem isLeastIn_extend_lo {P : Nat → Prop} {lo lo' hi : Nat} {o : Option Nat}
    (h : IsLeastIn P lo' hi o) (hlo : lo ≤ lo')
    (hgap : ∀ k, lo ≤ k → k < lo' → ¬ P k) : IsLeastIn P lo hi o := by
  match o with
  | none =>
    intro k hk hk' hP
    rcases Nat.lt_or_ge k lo' with hcase | hcase
    · exact hgap k hk hcase hP
    · exact h k hcase hk' hP
  | some j =>
    simp only [IsLeastIn] at h ⊢
    refine ⟨by omega, h.2.1, h.2.2.1, ?_⟩
    intro k hk hk' hP
    rcases Nat.lt_or_ge k lo' with hcase | hcase
    · exact hgap k hk hcase hP
    · exact h.2.2.2 k hcase hk' hP

theorem find?_range'_isLeastIn (P : Nat → Bool) (lo n : Nat) :
    IsLeastIn (fun k => P k = true) lo (lo + n) ((List.range' lo n).find? P) := by
  induction n generalizing lo with
  | zero =>
    simp only [List.range'_zero, List.find?_nil]
    exact isLeastIn_empty (by omega)
  | succ n ih =>
    rw [List.range'_succ]
    by_cases h : P lo
    · rw [List.find?_cons_of_pos _ h]
      exact ⟨Nat.le_refl lo, by omega, h, fun k hk hk' => by omega⟩
    · rw [List.find?_cons_of_neg _ h]
      have h2 : lo + 1 + n = lo + (n + 1) := by omega
      have hrec : IsLeastIn (fun k => P k = true) (lo + 1) (lo + (n + 1))
          (List.find? P (List.range' (lo + 1) n)) := by
        have := ih (lo + 1)
        rwa [h2] at this
      refine isLeastIn_extend_lo hrec (by omega) ?_
      intro k hk hk' hP
      have hkeq : k = lo := by omega
      subst hkeq
      exact h hP

theorem matchesFrom_cons_concrete (mem : Mem) (fb : Byte) (tail : Signature) (j : Nat) :
    (matchesFrom mem (some fb :: tail) j = true) ↔
      (mem j = fb ∧ matchesFrom mem tail (j + 1) = true) := by
  simp [matchesFrom]

theorem matchesFrom_drop_wildcards (mem : Mem) (sig : Signature) (p : Nat) :
    matchesFrom mem sig p =
      matchesFrom mem (sig.drop (countLeadingWildcards sig)) (p + countLeadingWildcards sig) := by
  induction sig generalizing p with
  | nil => rfl
  | cons elt rest ih =>
    match elt with
    | some v => rfl
    | none =>
      show matchesFrom mem rest (p + 1) = _
      rw [ih (p + 1)]
      have hdrop : ((none : SigElem) :: rest).drop (countLeadingWildcards ((none : SigElem) :: rest)) =
          rest.drop (countLeadingWildcards rest) := rfl
      rw [hdrop]
      have harith : p + countLeadingWildcards ((none : SigElem) :: rest) =
          p + 1 + countLeadingWildcards rest := by
        show p + (countLeadingWildcards rest + 1) = p + 1 + countLeadingWildcards rest
        omega
      rw [harith]

theorem countLeadingWildcards_le_length (sig : Signature) :
    countLeadingWildcards sig ≤ sig.length := by
  induction sig with
  | nil => simp [countLeadingWildcards]
  | cons elt rest ih =>
    match elt with
    | some v => simp [countLeadingWildcards]
    | none =>
      show countLeadingWildcards rest + 1 ≤ rest.length + 1
      omega

theorem drop_countLeadingWildcards (sig : Signature)
    (h : countLeadingWildcards sig < sig.length) :
    ∃ fb tail, sig.drop (countLeadingWildcards sig) = some fb :: tail := by
  induction sig with
  | nil => simp at h
  | cons elt rest ih =>
    match elt with
    | some v => exact ⟨v, rest, rfl⟩
    | none =>
      have h2 : countLeadingWildcards rest < rest.length := by
        have : countLeadingWildcards (none :: rest : Signature) = countLeadingWildcards rest + 1 := rfl
        simp [this] at h
        omega
      have hdrop : (none :: rest : Signature).drop (countLeadingWildcards (none :: rest)) =
          rest.drop (countLeadingWildcards rest) := by
        simp [countLeadingWildcards]
      rw [hdrop]
      exact ih h2

theorem countLeadingWildcards_replicate_append (w : Nat) (fb : Byte) (tail : Signature) :
    countLeadingWildcards (List.replicate w (none : SigElem) ++ (some fb :: tail)) = w := by
  induction w with
  | zero => rfl
  | succ w ih =>
    show countLeadingWildcards (List.replicate w (none : SigElem) ++ (some fb :: tail)) + 1 = w + 1
    omega

theorem drop_replicate_append (w : Nat) (fb : Byte) (tail : Signature) :
    (List.replicate w (none : SigElem) ++ (some fb :: tail)).drop w = some fb :: tail := by
  rw [List.drop_append_of_le_length (by simp)]
  simp

theorem next_boundary_align_16_spec (p : Nat) :
    p ≤ next_boundary_align 16 p ∧ next_boundary_align 16 p % 16 = 0 ∧
      next_boundary_align 16 p < p + 16 := by
  unfold next_boundary_align
  norm_num
  by_cases h : p % 16 = 0
  · simp [h]
  · simp only [h, if_false]
    omega

theorem prev_boundary_align_16_spec (p : Nat) :
    prev_boundary_align 16 p ≤ p ∧ prev_boundary_align 16 p % 16 = 0 ∧
      p < prev_boundary_align 16 p + 16 := by
  unfold prev_boundary_align
  norm_num
  omega

theorem next_boundary_align_16_mono {x y : Nat} (h : x ≤ y) :
    next_boundary_align 16 x ≤ next_boundary_align 16 y := by
  unfold next_boundary_align
  norm_num
  by_cases h1 : x % 16 = 0 <;> by_cases h2 : y % 16 = 0 <;> simp [h1, h2] <;> omega

theorem next_boundary_align_16_le_of_aligned {x q : Nat} (hq : q % 16 = 0) (h : x ≤ q) :
    next_boundary_align 16 x ≤ q := by
  unfold next_boundary_align
  norm_num
  by_cases h1 : x % 16 = 0 <;> simp [h1] <;> omega

theorem std_find_spec (mem : Mem) (fb : Byte) (i scanEnd : Nat) (hle : i ≤ scanEnd) :
    i ≤ std_find mem fb i scanEnd ∧ std_find mem fb i scanEnd ≤ scanEnd ∧
      (∀ k, i ≤ k → k < std_find mem fb i scanEnd → ¬ (mem k = fb)) ∧
      (std_find mem fb i scanEnd < scanEnd → mem (std_find mem fb i scanEnd) = fb) := by
  have h := find?_range'_isLeastIn (fun j => mem j == fb) i (scanEnd - i)
  rw [Nat.add_sub_cancel' hle] at h
  unfold std_find
  cases hfind : (List.range' i (scanEnd - i)).find? (fun j => mem j == fb) with
  | none =>
    rw [hfind] at h
    simp only [Option.getD_none]
    refine ⟨hle, Nat.le_refl _, ?_, fun hcon => absurd hcon (by omega)⟩
    intro k hk hk' hmem
    exact h k hk hk' (by simpa using hmem)
  | some j =>
    rw [hfind] at h
    simp only [IsLeastIn] at h
    simp only [Option.getD_some]
    refine ⟨h.1, by omega, ?_, fun _ => by simpa using h.2.2.1⟩
    intro k hk hk' hmem
    exact h.2.2.2 k hk hk' (by simpa using hmem)

theorem ffX1Go_isLeastIn (mem : Mem) (fb : Byte) (tail : Signature) (scanEnd : Nat) :
    ∀ fuel i, scanEnd ≤ i + fuel →
      IsLeastIn (fun j => mem j = fb ∧ matchesFrom mem tail (j + 1) = true) i scanEnd
        (ffX1Go mem fb tail scanEnd fuel i) := by
  intro fuel
  induction fuel with
  | zero =>
    intro i hf
    exact isLeastIn_empty (by omega)
  | succ fuel ih =>
    intro i hf
    show IsLeastIn _ _ _ (ffX1Go mem fb tail scanEnd (fuel + 1) i)
    unfold ffX1Go
    by_cases hi : i < scanEnd
    · simp only [hi, if_true]
      obtain ⟨hge, hle, hmin, hfound⟩ := std_find_spec mem fb i scanEnd (Nat.le_of_lt hi)
      by_cases hjlt : std_find mem fb i scanEnd < scanEnd
      · simp only [hjlt, if_true]
        by_cases hm : matchesFrom mem tail (std_find mem fb i scanEnd + 1) = true
        · simp only [hm, if_true]
          exact ⟨hge, hjlt, ⟨hfound hjlt, hm⟩, fun k hk hk' hPk => hmin k hk hk' hPk.1⟩
        · simp only [hm, if_false]
          have hrec := ih (std_find mem fb i scanEnd + 1) (by omega)
          refine isLeastIn_extend_lo hrec (by omega) ?_
          intro k hk hk' hPk
          rcases Nat.lt_or_ge k (std_find mem fb i scanEnd) with hcase | hcase
          · exact hmin k hk hcase hPk.1
          · have hkeq : k = std_find mem fb i scanEnd := by omega
            subst hkeq
            exact hm hPk.2
      · simp only [hjlt, if_false]
        intro k hk hk' hPk
        exact hmin k hk (by omega) hPk.1
    · simp only [hi, if_false]
      exact isLeastIn_empty (by omega)

theorem find_pattern_FastFirst_X1_isLeastIn (mem : Mem) (b e : Nat) (fb : Byte)
    (tail : Signature) :
    IsLeastIn (fun j => matchesFrom mem (some fb :: tail) j = true) b
      ((e - (tail.length + 1)) + 1)
      (find_pattern_FastFirst_X1 mem b e (some fb :: tail)) := by
  have h := ffX1Go_isLeastIn mem fb tail ((e - (tail.length + 1)) + 1)
    (((e - (tail.length + 1)) + 1) - b) b (by omega)
  have hgoal : find_pattern_FastFirst_X1 mem b e (some fb :: tail) =
      ffX1Go mem fb tail ((e - (tail.length + 1)) + 1)
        (((e - (tail.length + 1)) + 1) - b) b := by
    simp [find_pattern_FastFirst_X1]
  rw [hgoal]
  refine isLeastIn_iff ?_ h
  intro k
  rw [matchesFrom_cons_concrete]

theorem ffX16Go_isLeastIn (mem : Mem) (fb : Byte) (tail : Signature) (scanEnd : Nat) :
    ∀ fuel i, scanEnd ≤ i + fuel →
      IsLeastIn (fun j => j % 16 = i % 16 ∧ matchesFrom mem (some fb :: tail) j = true)
        i scanEnd (ffX16Go mem fb tail scanEnd fuel i) := by
  intro fuel
  induction fuel with
  | zero =>
    intro i hf
    exact isLeastIn_empty (by omega)
  | succ fuel ih =>
    intro i hf
    show IsLeastIn _ _ _ (ffX16Go mem fb tail scanEnd (fuel + 1) i)
    unfold ffX16Go
    by_cases hi : i < scanEnd
    · simp only [hi, if_true]
      by_cases hhit : (mem i == fb && matchesFrom mem tail (i + 1)) = true
      · simp only [hhit, if_true]
        refine ⟨Nat.le_refl i, hi, ⟨rfl, ?_⟩, fun k hk hk' => by omega⟩
        rw [matchesFrom_cons_concrete]
        simp only [Bool.and_eq_true, beq_iff_eq] at hhit
        exact hhit
      · simp only [hhit, if_false]
        have hrec := ih (i + 16) (by omega)
        have hconv : IsLeastIn
            (fun j => j % 16 = i % 16 ∧ matchesFrom mem (some fb :: tail) j = true)
            (i + 16) scanEnd (ffX16Go mem fb tail scanEnd fuel (i + 16)) := by
          refine isLeastIn_iff ?_ hrec
          intro k
          have : (i + 16) % 16 = i % 16 := by omega
          rw [this]
        refine isLeastIn_extend_lo hconv (by omega) ?_
        intro k hk hk' hPk
        have hkeq : k = i := by omega
        subst hkeq
        rw [matchesFrom_cons_concrete] at hPk
        have : (mem k == fb && matchesFrom mem tail (k + 1)) = true := by
          simp only [Bool.and_eq_true, beq_iff_eq]
          exact hPk.2
        exact hhit this
    · simp only [hi, if_false]
      exact isLeastIn_empty (by omega)

theorem find_pattern_FastFirst_X16_isLeastIn (mem : Mem) (b e : Nat) (fb : Byte)
    (tail : Signature) :
    IsLeastIn (fun j => j % 16 = 0 ∧ matchesFrom mem (some fb :: tail) j = true)
      (next_boundary_align 16 b)
      (prev_boundary_align 16 ((e - (tail.length + 1)) + 1))
      (find_pattern_FastFirst_X16 mem b e (some fb :: tail)) := by
  have hgoal : find_pattern_FastFirst_X16 mem b e (some fb :: tail) =
      (if next_boundary_align 16 b ≥ prev_boundary_align 16 ((e - (tail.length + 1)) + 1)
       then none
       else ffX16Go mem fb tail (prev_boundary_align 16 ((e - (tail.length + 1)) + 1))
         ((prev_boundary_align 16 ((e - (tail.length + 1)) + 1)) - next_boundary_align 16 b)
         (next_boundary_align 16 b)) := by
    simp [find_pattern_FastFirst_X16]
  rw [hgoal]
  by_cases hempty : next_boundary_align 16 b ≥ prev_boundary_align 16 ((e - (tail.length + 1)) + 1)
  · simp only [hempty, if_true]
    exact isLeastIn_empty (by omega)
  · simp only [hempty, if_false]
    have h := ffX16Go_isLeastIn mem fb tail
      (prev_boundary_align 16 ((e - (tail.length + 1)) + 1))
      ((prev_boundary_align 16 ((e - (tail.length + 1)) + 1)) - next_boundary_align 16 b)
      (next_boundary_align 16 b) (by omega)
    refine isLeastIn_iff ?_ h
    intro k
    have halign : next_boundary_align 16 b % 16 = 0 := (next_boundary_align_16_spec b).2.1
    rw [halign]

theorem scan_create_eq (al : scan_alignment) (ce : Bool) (sig : Signature) (hints : Nat)
    (mem : Mem) (b e : Nat) :
    (scan_context.create al ce sig hints).scan mem b e =
      find_pattern_FastFirst al mem b e sig := by
  cases ce <;> rfl

theorem find_pattern_eq_branches (al : scan_alignment) (ce : Bool) (mem : Mem)
    (beginIt e : Nat) (sig : Signature) (hints : Nat) :
    find_pattern al ce mem beginIt e sig hints =
      if beginIt + countLeadingWildcards sig ≥ e ∨
          (sig.drop (countLeadingWildcards sig)).length > e - (beginIt + countLeadingWildcards sig)
      then none
      else
        match find_pattern_FastFirst al mem (beginIt + countLeadingWildcards sig) e
            (sig.drop (countLeadingWildcards sig)) with
        | some p => some (p - countLeadingWildcards sig)
        | none => none := by
  simp only [find_pattern, truncate, scan_create_eq]

theorem find_pattern_isLeastIn (al : scan_alignment) (ce : Bool) (mem : Mem)
    (beginIt e : Nat) (sig : Signature) (hints : Nat)
    (hinv : countLeadingWildcards sig < sig.length) :
    IsLeastIn (kernel_pred al mem (sig.drop (countLeadingWildcards sig)))
      (kernel_scan_lo al (beginIt + countLeadingWildcards sig))
      (kernel_scan_hi al e (sig.length - countLeadingWildcards sig))
      ((find_pattern al ce mem beginIt e sig hints).map
        (fun p => p + countLeadingWildcards sig)) := by
  obtain ⟨fb, tail, htr⟩ := drop_countLeadingWildcards sig hinv
  have hlen : (sig.drop (countLeadingWildcards sig)).length =
      sig.length - countLeadingWildcards sig := by
    simp [List.length_drop]
  have htl : sig.length - countLeadingWildcards sig = tail.length + 1 := by
    rw [← hlen, htr]
    simp
  rw [find_pattern_eq_branches]
  by_cases hrej : beginIt + countLeadingWildcards sig ≥ e ∨
      (sig.drop (countLeadingWildcards sig)).length > e - (beginIt + countLeadingWildcards sig)
  · simp only [hrej, if_true, Option.map_none']
    rw [hlen] at hrej
    cases al with
    | X1 =>
      refine isLeastIn_empty ?_
      show kernel_scan_hi .X1 e (sig.length - countLeadingWildcards sig) ≤
        kernel_scan_lo .X1 (beginIt + countLeadingWildcards sig)
      simp only [kernel_scan_hi, kernel_scan_lo]
      omega
    | X16 =>
      refine isLeastIn_empty ?_
      show kernel_scan_hi .X16 e (sig.length - countLeadingWildcards sig) ≤
        kernel_scan_lo .X16 (beginIt + countLeadingWildcards sig)
      simp only [kernel_scan_hi, kernel_scan_lo]
      have hprev := prev_boundary_align_16_spec
        ((e - (sig.length - countLeadingWildcards sig)) + 1)
      have hnext := next_boundary_align_16_spec (beginIt + countLeadingWildcards sig)
      omega
  · simp only [hrej, if_false]
    rw [hlen] at hrej
    push_neg at hrej
    obtain ⟨hblt, hfit⟩ := hrej
    cases al with
    | X1 =>
      have hk := find_pattern_FastFirst_X1_isLeastIn mem
        (beginIt + countLeadingWildcards sig) e fb tail
      rw [← htr] at hk
      have hhi : (e - (tail.length + 1)) + 1 =
          kernel_scan_hi .X1 e (sig.length - countLeadingWildcards sig) := by
        simp only [kernel_scan_hi]
        omega
      rw [hhi] at hk
      have hpred : ∀ k, (matchesFrom mem (sig.drop (countLeadingWildcards sig)) k = true) ↔
          kernel_pred .X1 mem (sig.drop (countLeadingWildcards sig)) k := by
        intro k
        simp [kernel_pred]
      simp only [find_pattern_FastFirst]
      cases hkr : find_pattern_FastFirst_X1 mem (beginIt + countLeadingWildcards sig) e
          (sig.drop (countLeadingWildcards sig)) with
      | none =>
        rw [hkr] at hk
        exact isLeastIn_iff hpred hk
      | some p =>
        rw [hkr] at hk
        simp only [IsLeastIn] at hk
        have hble : beginIt + countLeadingWildcards sig ≤ p := hk.1
        have hpo : p - countLeadingWildcards sig + countLeadingWildcards sig = p := by
          omega
        show IsLeastIn _ _ _
          (some (p - countLeadingWildcards sig + countLeadingWildcards sig))
        rw [hpo]
        exact isLeastIn_iff hpred hk
    | X16 =>
      have hk := find_pattern_FastFirst_X16_isLeastIn mem
        (beginIt + countLeadingWildcards sig) e fb tail
      rw [← htr] at hk
      have hhi : prev_boundary_align 16 ((e - (tail.length + 1)) + 1) =
          kernel_scan_hi .X16 e (sig.length - countLeadingWildcards sig) := by
        simp only [kernel_scan_hi]
        rw [htl]
      rw [hhi] at hk
      have hpred : ∀ k,
          (k % 16 = 0 ∧ matchesFrom mem (sig.drop (countLeadingWildcards sig)) k = true) ↔
          kernel_pred .X16 mem (sig.drop (countLeadingWildcards sig)) k := by
        intro k
        simp [kernel_pred]
      simp only [find_pattern_FastFirst]
      cases hkr : find_pattern_FastFirst_X16 mem (beginIt + countLeadingWildcards sig) e
          (sig.drop (countLeadingWildcards sig)) with
      | none =>
        rw [hkr] at hk
        exact isLeastIn_iff hpred hk
      | some p =>
        rw [hkr] at hk
        simp only [IsLeastIn] at hk
        have hnext := next_boundary_align_16_spec (beginIt + countLeadingWildcards sig)
        have hble : next_boundary_align 16 (beginIt + countLeadingWildcards sig) ≤ p := hk.1
        have hpo : p - countLeadingWildcards sig + countLeadingWildcards sig = p := by
          omega
        show IsLeastIn _ _ _
          (some (p - countLeadingWildcards sig + countLeadingWildcards sig))
        rw [hpo]
        exact isLeastIn_iff hpred hk

theorem option_map_add_sub_cancel (o : Option Nat) (c : Nat) :
    (o.map (fun p => p + c)).map (fun x => x - c) = o := by
  cases o <;> simp

theorem find?_range'_isLeastIn_sub (P : Nat → Bool) (lo hi : Nat) :
    IsLeastIn (fun k => P k = true) lo hi ((List.range' lo (hi - lo)).find? P) := by
  rcases Nat.le_total lo hi with h | h
  · have hfind := find?_range'_isLeastIn P lo (hi - lo)
    rwa [Nat.add_sub_cancel' h] at hfind
  · have hn : hi - lo = 0 := by omega
    rw [hn]
    simp only [List.range'_zero, List.find?_nil]
    exact isLeastIn_empty h

/-- C1 (amended): for every range, signature satisfying the invariants, and
alignment, `hat::find_pattern` returns the lowest admissible starting
position matching the signature — where for alignment 1 the admissible
positions are exactly those of the claim, and for alignment 16 the
candidate window's exclusive bound is additionally rounded down to a
16-byte boundary (`prev_boundary_align 16 (end - len + 1)`), as the code
does, so up to one final aligned candidate may be skipped. -/
theorem C1_find_first_least_admissible (al : scan_alignment) (ce : Bool) (mem : Mem)
    (beginIt e : Nat) (sig : Signature) (hints : Nat)
    (hinv : countLeadingWildcards sig < sig.length) :
    find_pattern al ce mem beginIt e sig hints = refFindFirstAmended al mem beginIt e sig := by
  have hM := find_pattern_isLeastIn al ce mem beginIt e sig hints hinv
  have hlen : (sig.drop (countLeadingWildcards sig)).length =
      sig.length - countLeadingWildcards sig := by
    simp [List.length_drop]
  cases al with
  | X1 =>
    have hlo : countLeadingWildcards sig ≤
        kernel_scan_lo .X1 (beginIt + countLeadingWildcards sig) := by
      simp only [kernel_scan_lo]
      omega
    have hS := isLeastIn_shift hM (countLeadingWildcards sig) hlo
    rw [option_map_add_sub_cancel] at hS
    simp only [kernel_scan_lo, kernel_scan_hi, Nat.add_sub_cancel] at hS
    have hT : IsLeastIn
        (fun k => (decide (k + sig.length ≤ e) &&
          alignAdmissible .X1 (k + countLeadingWildcards sig) && matchesFrom mem sig k) = true)
        beginIt (beginIt + (e - beginIt))
        (find_pattern .X1 ce mem beginIt e sig hints) := by
      refine isLeastIn_congr hS (by omega) ?_
      intro k hk hk'
      simp only [Bool.and_eq_true, decide_eq_true_eq, alignAdmissible, kernel_pred,
        Bool.and_true, and_true]
      rw [matchesFrom_drop_wildcards mem sig k]
      constructor
      · rintro ⟨hfit, hm⟩
        refine ⟨⟨by intro hcon; exact absurd hcon (by simp), hm⟩, by omega⟩
      · rintro ⟨⟨-, hm⟩, hb⟩
        exact ⟨by omega, hm⟩
    have hR := find?_range'_isLeastIn
      (fun p => decide (p + sig.length ≤ e) &&
        alignAdmissible .X1 (p + countLeadingWildcards sig) && matchesFrom mem sig p)
      beginIt (e - beginIt)
    have heq := isLeastIn_unique hT hR
    exact heq
  | X16 =>
    have hpred : ∀ j, kernel_pred .X16 mem (sig.drop (countLeadingWildcards sig)) j ↔
        ((decide (j % 16 = 0) &&
          matchesFrom mem (sig.drop (countLeadingWildcards sig)) j) = true) := by
      intro j
      simp [kernel_pred]
    have hM' := isLeastIn_iff hpred hM
    simp only [kernel_scan_lo, kernel_scan_hi] at hM'
    have hR := find?_range'_isLeastIn_sub
      (fun j => decide (j % 16 = 0) && matchesFrom mem (sig.drop (countLeadingWildcards sig)) j)
      (next_boundary_align 16 (beginIt + countLeadingWildcards sig))
      (prev_boundary_align 16 ((e - (sig.length - countLeadingWildcards sig)) + 1))
    have heq := isLeastIn_unique hM' hR
    show find_pattern .X16 ce mem beginIt e sig hints =
      (refX16KernelCapped mem (beginIt + countLeadingWildcards sig) e
        (sig.drop (countLeadingWildcards sig))).map (fun j => j - countLeadingWildcards sig)
    have hcap : refX16KernelCapped mem (beginIt + countLeadingWildcards sig) e
        (sig.drop (countLeadingWildcards sig)) =
        (List.range' (next_boundary_align 16 (beginIt + countLeadingWildcards sig))
          ((prev_boundary_align 16 ((e - (sig.length - countLeadingWildcards sig)) + 1)) -
            (next_boundary_align 16 (beginIt + countLeadingWildcards sig)))).find?
          (fun j => decide (j % 16 = 0) &&
            matchesFrom mem (sig.drop (countLeadingWildcards sig)) j) := by
      simp only [refX16KernelCapped, hlen]
    rw [hcap, ← heq, option_map_add_sub_cancel]

/-- C1 counterexample: with alignment 16, the byte 0xDE at address 16,
range `[0, 17)` and signature `DE`, position 16 is 16-aligned, lies in the
range, and matches, so the claim mandates a hit at 16 — but the code
returns null because `prev_boundary_align` caps the candidate window at 16
(exclusive). -/
theorem C1_x16_misses_last_candidate :
    find_pattern .X16 false deAt16Mem 0 17 [some 0xDE] 0 = none ∧
      refFindFirstClaim .X16 deAt16Mem 0 17 [some 0xDE] = some 16 := by
  constructor
  · rfl
  · rfl

/-- Witness instantiating `C1_find_first_least_admissible` at a concrete
input. -/
theorem C1_find_first_least_admissible_witness :
    countLeadingWildcards [some (0 : Byte)] < ([some (0 : Byte)] : Signature).length ∧
      find_pattern .X1 false zeroMem 0 3 [some 0] 0 =
        refFindFirstAmended .X1 zeroMem 0 3 [some 0] :=
  ⟨by decide, C1_find_first_least_admissible .X1 false zeroMem 0 3 [some 0] 0 (by decide)⟩

/-- C3 (amended): the Scalar-FastFirst stride-16 kernel examines exactly the
16-stepped candidates from the first 16-aligned address at or after `begin`
that lie below `prev_boundary_align 16 (end - len + 1)` — the code rounds
the exclusive bound of the claim's window down to a 16-byte boundary — and
returns the lowest matching examined candidate, else null. -/
theorem C3_x16_kernel_window (mem : Mem) (b e : Nat) (fb : Byte) (tail : Signature) :
    find_pattern_FastFirst_X16 mem b e (some fb :: tail) =
      refX16KernelCapped mem b e (some fb :: tail) := by
  have hk := find_pattern_FastFirst_X16_isLeastIn mem b e fb tail
  have hpred : ∀ j, (j % 16 = 0 ∧ matchesFrom mem (some fb :: tail) j = true) ↔
      ((decide (j % 16 = 0) && matchesFrom mem (some fb :: tail) j) = true) := by
    intro j
    simp
  have hk' := isLeastIn_iff hpred hk
  have hR := find?_range'_isLeastIn_sub
    (fun j => decide (j % 16 = 0) && matchesFrom mem (some fb :: tail) j)
    (next_boundary_align 16 b)
    (prev_boundary_align 16 ((e - (tail.length + 1)) + 1))
  exact isLeastIn_unique hk' hR

/-- C3 counterexample: byte 0xDE at address 16, range `[0, 17)`, signature
`DE`.  The claim's candidate set is the 16-aligned addresses below
`end - len + 1 = 17`, i.e. `{0, 16}`, whose lowest match is 16; the kernel
stops at `prev_boundary_align 16 17 = 16` (exclusive) and returns null. -/
theorem C3_x16_kernel_window_counterexample :
    find_pattern_FastFirst_X16 deAt16Mem 0 17 [some 0xDE] = none ∧
      refX16KernelClaim deAt16Mem 0 17 [some 0xDE] = some 16 := by
  constructor
  · rfl
  · rfl

/-- C5: when the adjusted begin is at or past end, or the truncated
signature is longer than the remaining range, `hat::find_pattern` returns
the no-match sentinel; the result is `none` for every memory, so no byte
of the range is read and no kernel result is consulted. -/
theorem C5_invalid_range_rejected (al : scan_alignment) (ce : Bool) (mem : Mem)
    (beginIt e : Nat) (sig : Signature) (hints : Nat)
    (h : beginIt + countLeadingWildcards sig ≥ e ∨
      (sig.drop (countLeadingWildcards sig)).length > e - (beginIt + countLeadingWildcards sig)) :
    find_pattern al ce mem beginIt e sig hints = none := by
  rw [find_pattern_eq_branches, if_pos h]

/-- Witness instantiating `C5_invalid_range_rejected` at a concrete input
(`begin = 5 > end = 3`). -/
theorem C5_invalid_range_rejected_witness :
    (5 + countLeadingWildcards [some (0 : Byte)] ≥ 3 ∨
      (([some (0 : Byte)] : Signature).drop (countLeadingWildcards [some (0 : Byte)])).length >
        3 - (5 + countLeadingWildcards [some (0 : Byte)])) ∧
      find_pattern .X1 false zeroMem 5 3 [some 0] 0 = none :=
  ⟨by decide, C5_invalid_range_rejected .X1 false zeroMem 5 3 [some 0] 0 (by decide)⟩

/-- C6: for a non-null result at `p`, `rel(k)` returns
`p + sext32(bytes at p+k .. p+k+3, little endian) + k + 4`; for a null
result it returns null. -/
theorem C6_rel_resolves_displacement (mem : Mem) (p k : Nat) :
    scan_result_rel mem (some p) k =
      some ((p : Int) + sext32 ((mem (p + k)).val + 256 * (mem (p + k + 1)).val +
        65536 * (mem (p + k + 2)).val + 16777216 * (mem (p + k + 3)).val) + (k : Int) + 4) ∧
      scan_result_rel mem none k = none := by
  constructor
  · have harg : readLE mem 4 (p + k) =
        (mem (p + k)).val + 256 * (mem (p + k + 1)).val + 65536 * (mem (p + k + 2)).val +
          16777216 * (mem (p + k + 3)).val := by
      simp only [readLE]
      ring
    simp only [scan_result_rel, harg]
  · rfl

/-- C8: in a constant-evaluation context the dispatcher stores the scalar
FastFirst kernel and a zero vector width without consulting CPU features
or hints, and the scan result equals that of the run-time path. -/
theorem C8_consteval_dispatch (al : scan_alignment) (sig : Signature) (hints : Nat)
    (mem : Mem) (b e : Nat) :
    (scan_context.create al true sig hints).scanner = scan_mode.FastFirst ∧
      (scan_context.create al true sig hints).vectorSize = 0 ∧
      (scan_context.create al true sig hints).scan mem b e =
        (scan_context.create al false sig hints).scan mem b e := by
  refine ⟨rfl, rfl, ?_⟩
  rw [scan_create_eq, scan_create_eq]

/-- C9: for the mandated strides, `next_boundary_align` is the least
aligned address at or above `p`, `prev_boundary_align` is the greatest
aligned address at or below `p`, and both are the identity for stride 1. -/
theorem C9_boundary_align (s p : Nat) (hs : s = 1 ∨ s = 16) :
    (p ≤ next_boundary_align s p ∧ next_boundary_align s p % s = 0 ∧
      (∀ q, p ≤ q → q % s = 0 → next_boundary_align s p ≤ q)) ∧
    (prev_boundary_align s p ≤ p ∧ prev_boundary_align s p % s = 0 ∧
      (∀ q, q ≤ p → q % s = 0 → q ≤ prev_boundary_align s p)) ∧
    (s = 1 → next_boundary_align s p = p ∧ prev_boundary_align s p = p) := by
  rcases hs with h | h
  · subst h
    simp only [next_boundary_align, prev_boundary_align, if_pos rfl]
    refine ⟨⟨Nat.le_refl p, ?_, fun q hq _ => hq⟩, ⟨Nat.le_refl p, ?_, fun q hq _ => hq⟩, ?_⟩
    · omega
    · omega
    · exact fun _ => ⟨rfl, rfl⟩
  · subst h
    have hn := next_boundary_align_16_spec p
    have hpv := prev_boundary_align_16_spec p
    refine ⟨⟨hn.1, hn.2.1, ?_⟩, ⟨hpv.1, hpv.2.1, ?_⟩, ?_⟩
    · intro q hq hq16
      omega
    · intro q hq hq16
      omega
    · intro hcon
      exact absurd hcon (by norm_num)

/-- Witness instantiating `C9_boundary_align` at stride 16 and pointer 21. -/
theorem C9_boundary_align_witness :
    ((16 : Nat) = 1 ∨ (16 : Nat) = 16) ∧
      ((21 ≤ next_boundary_align 16 21 ∧ next_boundary_align 16 21 % 16 = 0 ∧
        (∀ q, 21 ≤ q → q % 16 = 0 → next_boundary_align 16 21 ≤ q)) ∧
      (prev_boundary_align 16 21 ≤ 21 ∧ prev_boundary_align 16 21 % 16 = 0 ∧
        (∀ q, q ≤ 21 → q % 16 = 0 → q ≤ prev_boundary_align 16 21)) ∧
      ((16 : Nat) = 1 → next_boundary_align 16 21 = 21 ∧ prev_boundary_align 16 21 = 21)) :=
  ⟨Or.inr rfl, C9_boundary_align 16 21 (Or.inr rfl)⟩

/-- C4: leading-wildcard truncation law — if searching for the concrete
tail alone hits at `q`, and `q - w` stays at or after the range begin,
then searching for `w` leading wildcards followed by that tail hits at
`q - w`. -/
theorem C4_truncation_law (al : scan_alignment) (ce : Bool) (mem : Mem)
    (beginIt e hints w : Nat) (fb : Byte) (tail : Signature) (q : Nat)
    (hq : find_pattern al ce mem beginIt e (some fb :: tail) hints = some q)
    (hw : beginIt + w ≤ q) :
    find_pattern al ce mem beginIt e
      (List.replicate w (none : SigElem) ++ (some fb :: tail)) hints = some (q - w) := by
  have hc1 : countLeadingWildcards (some fb :: tail) = 0 := rfl
  have hinv1 : countLeadingWildcards (some fb :: tail) < (some fb :: tail : Signature).length := by
    rw [hc1]
    simp
  have hc2 := countLeadingWildcards_replicate_append w fb tail
  have hd2 := drop_replicate_append w fb tail
  have hlen2 : (List.replicate w (none : SigElem) ++ (some fb :: tail)).length =
      w + (tail.length + 1) := by
    simp
  have hinv2 : countLeadingWildcards (List.replicate w (none : SigElem) ++ (some fb :: tail)) <
      (List.replicate w (none : SigElem) ++ (some fb :: tail)).length := by
    rw [hc2, hlen2]
    omega
  have hM1 := find_pattern_isLeastIn al ce mem beginIt e (some fb :: tail) hints hinv1
  have hM2 := find_pattern_isLeastIn al ce mem beginIt e
    (List.replicate w (none : SigElem) ++ (some fb :: tail)) hints hinv2
  rw [hq, hc1] at hM1
  simp only [List.drop_zero, Nat.add_zero, Nat.sub_zero, Option.map_some',
    List.length_cons] at hM1
  rw [hc2, hd2, hlen2] at hM2
  have hlen2' : w + (tail.length + 1) - w = tail.length + 1 := by omega
  rw [hlen2'] at hM2
  simp only [IsLeastIn, kernel_pred] at hM1
  have hq16 : al = .X16 → q % 16 = 0 := fun hal => (hM1.2.2.1).1 hal
  have hlo12 : kernel_scan_lo al beginIt ≤ kernel_scan_lo al (beginIt + w) := by
    cases al with
    | X1 =>
      simp only [kernel_scan_lo]
      omega
    | X16 => exact next_boundary_align_16_mono (by omega)
  have hloq : kernel_scan_lo al (beginIt + w) ≤ q := by
    cases al with
    | X1 =>
      simp only [kernel_scan_lo]
      omega
    | X16 => exact next_boundary_align_16_le_of_aligned (hq16 rfl) hw
  have hT : IsLeastIn (kernel_pred al mem (some fb :: tail))
      (kernel_scan_lo al (beginIt + w)) (kernel_scan_hi al e (tail.length + 1)) (some q) := by
    refine ⟨hloq, hM1.2.1, hM1.2.2.1, ?_⟩
    intro k hk hk'
    exact hM1.2.2.2 k (by omega) hk'
  have heq := isLeastIn_unique hM2 hT
  cases hres : find_pattern al ce mem beginIt e
      (List.replicate w (none : SigElem) ++ (some fb :: tail)) hints with
  | none =>
    rw [hres] at heq
    simp at heq
  | some r =>
    rw [hres] at heq
    simp only [Option.map_some', Option.some_inj] at heq
    simp only [Option.some_inj]
    omega

/-- Witness instantiating `C4_truncation_law`: memory `01 00 00`, tail
signature `00` hits at 1, so `? 00` hits at 0. -/
theorem C4_truncation_law_witness :
    find_pattern .X1 false oneThenZeroMem 0 3 [some 0] 0 = some 1 ∧ 0 + 1 ≤ 1 ∧
      find_pattern .X1 false oneThenZeroMem 0 3
        (List.replicate 1 (none : SigElem) ++ [some 0]) 0 = some 0 :=
  ⟨by decide, by decide,
    C4_truncation_law .X1 false oneThenZeroMem 0 3 0 1 0 [] 1 (by decide) (by decide)⟩

theorem ffX16Go_some_mod (mem : Mem) (fb : Byte) (tail : Signature) (scanEnd : Nat) :
    ∀ fuel i p, ffX16Go mem fb tail scanEnd fuel i = some p → p % 16 = i % 16 := by
  intro fuel
  induction fuel with
  | zero =>
    intro i p h
    simp [ffX16Go] at h
  | succ fuel ih =>
    intro i p h
    rw [ffX16Go] at h
    by_cases hi : i < scanEnd
    · rw [if_pos hi] at h
      by_cases hhit : (mem i == fb && matchesFrom mem tail (i + 1)) = true
      · rw [if_pos hhit] at h
        simp only [Option.some_inj] at h
        omega
      · rw [if_neg hhit] at h
        have := ih (i + 16) p h
        omega
    · rw [if_neg hi] at h
      simp at h

theorem find_pattern_FastFirst_X16_some_aligned (mem : Mem) (b e : Nat) (sig : Signature)
    (p : Nat) (h : find_pattern_FastFirst_X16 mem b e sig = some p) : p % 16 = 0 := by
  match sig with
  | [] => simp [find_pattern_FastFirst_X16] at h
  | fbOpt :: tail =>
    simp only [find_pattern_FastFirst_X16] at h
    by_cases hempty : next_boundary_align 16 b ≥
        prev_boundary_align 16 ((e - (fbOpt :: tail : Signature).length) + 1)
    · rw [if_pos hempty] at h
      simp at h
    · rw [if_neg hempty] at h
      have hres := ffX16Go_some_mod mem (fbOpt.getD 0) tail _ _ _ p h
      have halign := (next_boundary_align_16_spec b).2.1
      omega

theorem scan_create_some_aligned (ce : Bool) (trunc : Signature) (hints : Nat)
    (mem : Mem) (b e p : Nat)
    (h : (scan_context.create .X16 ce trunc hints).scan mem b e = some p) : p % 16 = 0 := by
  rw [scan_create_eq] at h
  simp only [find_pattern_FastFirst] at h
  exact find_pattern_FastFirst_X16_some_aligned mem b e trunc p h

theorem find_all_go_mem (ctx : scan_context) (mem : Mem) (offset e : Nat) :
    ∀ cap i a, a ∈ (find_all_go ctx mem offset e cap i).1 →
      ∃ j p, ctx.scan mem j e = some p ∧ a = (p : Int) - (offset : Int) := by
  intro cap
  induction cap with
  | zero =>
    intro i a ha
    simp [find_all_go] at ha
  | succ cap ih =>
    intro i a ha
    rw [find_all_go] at ha
    by_cases hg : i < (e : Int) ∧ (ctx.signature.length : Int) ≤ (e : Int) - i
    · rw [if_pos hg] at ha
      cases hscan : ctx.scan mem i.toNat e with
      | none =>
        rw [hscan] at ha
        simp at ha
      | some p =>
        rw [hscan] at ha
        simp only [List.mem_cons] at ha
        rcases ha with ha | ha
        · exact ⟨i.toNat, p, hscan, ha⟩
        · exact ih _ a ha
    · rw [if_neg hg] at ha
      simp at ha

theorem find_all_counted_go_mem (ctx : scan_context) (mem : Mem) (offset bgn e : Nat)
    (P : Int → Prop)
    (hscanP : ∀ j p, ctx.scan mem j e = some p → P ((p : Int) - (offset : Int))) :
    ∀ fuel i acc cnt outs n, (∀ a ∈ acc, P a) →
      find_all_counted_go ctx mem offset bgn e fuel i acc cnt = some (outs, n) →
      ∀ a ∈ outs, P a := by
  intro fuel
  induction fuel with
  | zero =>
    intro i acc cnt outs n hacc h
    simp [find_all_counted_go] at h
  | succ fuel ih =>
    intro i acc cnt outs n hacc h
    rw [find_all_counted_go] at h
    by_cases hg : bgn < e ∧ (ctx.signature.length : Int) ≤ ((e : Int) - i) % (2 ^ 64 : Int)
    · rw [if_pos hg] at h
      cases hscan : ctx.scan mem i.toNat e with
      | none =>
        rw [hscan] at h
        simp only [Option.some_inj, Prod.mk.injEq] at h
        intro a ha
        rw [← h.1] at ha
        exact hacc a ha
      | some p =>
        rw [hscan] at h
        refine ih _ _ _ _ _ ?_ h
        intro a ha
        rw [List.mem_append] at ha
        rcases ha with ha | ha
        · exact hacc a ha
        · simp only [List.mem_singleton] at ha
          subst ha
          exact hscanP _ _ hscan
    · rw [if_neg hg] at h
      simp only [Option.some_inj, Prod.mk.injEq] at h
      intro a ha
      rw [← h.1] at ha
      exact hacc a ha

/-- C7: every non-null address returned by find-first, and every address
written by either find-all overload, lies on the stride lattice anchored
at the call's first alignment-admissible candidate start. -/
theorem C7_stride_idempotence (al : scan_alignment) (ce : Bool) (mem : Mem)
    (beginIt e cap fuel : Nat) (sig : Signature) (hints : Nat)
    (hinv : countLeadingWildcards sig < sig.length) :
    (∀ a, find_pattern al ce mem beginIt e sig hints = some a →
      ((a : Int) - first_candidate al beginIt (countLeadingWildcards sig)) %
        (alignment_stride al : Int) = 0) ∧
    (∀ a, a ∈ (find_all_pattern_bounded al ce mem beginIt e cap sig hints).2 →
      ((a - first_candidate al beginIt (countLeadingWildcards sig)) %
        (alignment_stride al : Int) = 0)) ∧
    (∀ outs n, find_all_pattern_counted al ce mem beginIt e sig hints fuel = some (outs, n) →
      ∀ a ∈ outs,
        ((a - first_candidate al beginIt (countLeadingWildcards sig)) %
          (alignment_stride al : Int) = 0)) := by
  cases al with
  | X1 =>
    refine ⟨fun a _ => ?_, fun a _ => ?_, fun outs n _ a _ => ?_⟩ <;>
      simp [alignment_stride]
  | X16 =>
    have hfc := (next_boundary_align_16_spec (beginIt + countLeadingWildcards sig)).2.1
    refine ⟨?_, ?_, ?_⟩
    · intro a ha
      have hM := find_pattern_isLeastIn .X16 ce mem beginIt e sig hints hinv
      rw [ha] at hM
      simp only [Option.map_some', IsLeastIn, kernel_pred] at hM
      have h16 := (hM.2.2.1).1 (by trivial)
      simp only [first_candidate, kernel_scan_lo, alignment_stride]
      omega
    · intro a ha
      simp only [find_all_pattern_bounded, truncate] at ha
      obtain ⟨j, p, hscan, haeq⟩ := find_all_go_mem _ mem _ e _ _ a ha
      have hp := scan_create_some_aligned ce _ hints mem j e p hscan
      subst haeq
      simp only [first_candidate, kernel_scan_lo, alignment_stride]
      omega
    · intro outs n hrun a ha
      simp only [find_all_pattern_counted, truncate] at hrun
      refine find_all_counted_go_mem _ mem _ _ e
        (fun x => (x - first_candidate .X16 beginIt (countLeadingWildcards sig)) %
          (alignment_stride .X16 : Int) = 0) ?_ fuel _ [] 0 outs n ?_ hrun a ha
      · intro j p hscan
        have hp := scan_create_some_aligned ce _ hints mem j e p hscan
        simp only [first_candidate, kernel_scan_lo, alignment_stride]
        omega
      · intro x hx
        exact absurd hx (List.not_mem_nil x)

/-- Witness instantiating `C7_stride_idempotence` at a concrete stride-16
call over 33 zero bytes. -/
theorem C7_stride_idempotence_witness :
    countLeadingWildcards [some (0 : Byte)] < ([some (0 : Byte)] : Signature).length ∧
      ((∀ a, find_pattern .X16 false zeroMem 0 33 [some 0] 0 = some a →
        ((a : Int) - first_candidate .X16 0 (countLeadingWildcards [some (0 : Byte)])) %
          (alignment_stride .X16 : Int) = 0) ∧
      (∀ a, a ∈ (find_all_pattern_bounded .X16 false zeroMem 0 33 2 [some 0] 0).2 →
        ((a - first_candidate .X16 0 (countLeadingWildcards [some (0 : Byte)])) %
          (alignment_stride .X16 : Int) = 0)) ∧
      (∀ outs n, find_all_pattern_counted .X16 false zeroMem 0 33 [some 0] 0 5 = some (outs, n) →
        ∀ a ∈ outs,
          ((a - first_candidate .X16 0 (countLeadingWildcards [some (0 : Byte)])) %
            (alignment_stride .X16 : Int) = 0))) :=
  ⟨by decide, C7_stride_idempotence .X16 false zeroMem 0 33 2 5 [some 0] 0 (by decide)⟩

/-- C2 (code bug): over the 3 zero bytes `[0, 3)` with signature `? 00`
(one leading wildcard) and stride 1, the match positions are `{0, 1}`, but
the bounded find-all advances its cursor to `(hit - offset) + stride`,
which re-admits the same kernel hit: with output capacity 3 it writes
address 0 three times and its input cursor never moves past 0. -/
theorem C2_find_all_cursor_regression :
    find_all_pattern_bounded .X1 false zeroMem 0 3 3 [none, some 0] 0 = (0, [0, 0, 0]) ∧
      refFindAllClaim zeroMem 0 3 [none, some 0] = [0, 1] := by
  constructor
  · rfl
  · rfl

/-- C10 (code bug): on the same input (`? 00` over three zero bytes) the
counted find-all loop never terminates — its cursor returns to the same
position after every hit — so the model returns `none` (budget exhausted)
for every iteration budget. -/
theorem C10_counted_loop_diverges (fuel : Nat) :
    find_all_pattern_counted .X1 false zeroMem 0 3 [none, some 0] 0 fuel = none := by
  have hstuck : ∀ f acc cnt,
      find_all_counted_go (scan_context.create .X1 false [some 0] 0) zeroMem 1 1 3 f
        1 acc cnt = none := by
    intro f
    induction f with
    | zero =>
      intro acc cnt
      rfl
    | succ f ih =>
      intro acc cnt
      have hstep : find_all_counted_go (scan_context.create .X1 false [some 0] 0) zeroMem
          1 1 3 (f + 1) 1 acc cnt =
          find_all_counted_go (scan_context.create .X1 false [some 0] 0) zeroMem
            1 1 3 f 1 (acc ++ [0]) (cnt + 1) := by
        rfl
      rw [hstep]
      exact ih (acc ++ [0]) (cnt + 1)
  show find_all_counted_go (scan_context.create .X1 false [some 0] 0) zeroMem 1 1 3 fuel
    1 [] 0 = none
  exact hstuck fuel [] 0
